import Mathlib

/-!
Verification of the language-aggregation / README-splicing script
(scripts/update_tech_stack.py).

The script is embedded shallowly:
* the aggregation core (detect_languages, lines 81-109) becomes pure
  functions over association lists, mirroring Python dict insertion order;
* the HTTP layer (get_all_repos / get_repo_languages) is modelled with an
  explicit page/response oracle and an Except result for raise_for_status;
* the README splicing (update_readme, lines 133-156) is modelled over
  List Char, with the regex r"<!-- TECH-STACK-START -->.*?<!-- TECH-STACK-END -->"
  (re.DOTALL) expanded into explicit first-occurrence searches: the lazy
  .*? matches from the first start sentinel to the first end sentinel
  after it, and re.sub replaces every non-overlapping such match.

Python's sorted(..., reverse=True) is a stable sort by descending count;
a stable sort w.r.t. a total preorder is unique, so the structurally
recursive List.insertionSort with the same relation is extensionally the
same function.
-/

/-- Languages to skip (noise / not real tech stack items); SKIP_LANGUAGES, line 46. -/
def SKIP_LANGUAGES : List String := ["Makefile", "Markdown", "Text", "YAML", "JSON", "TOML", "XML"]

/-- Minimum percentage threshold, MIN_PERCENT = 0.5, line 49.  Byte counts are
integers and the threshold is 0.5, both exact in the rationals, so the
percentage test is modelled over the rationals. -/
def MIN_PERCENT : ℚ := 0.5

/-- Language-to-badge table, BADGE_MAP, lines 23-43 (keys only matter for the
claims; values are the fixed markup strings). -/
def BADGE_MAP : List (String × String) :=
  [("Java", "![Java](https://img.shields.io/badge/Java-%23ED8B00.svg?style=for-the-badge&logo=openjdk&logoColor=white)"),
   ("JavaScript", "![JavaScript](https://img.shields.io/badge/JavaScript-%23323330.svg?style=for-the-badge&logo=javascript&logoColor=%23F7DF1E)"),
   ("TypeScript", "![TypeScript](https://img.shields.io/badge/TypeScript-%23007ACC.svg?style=for-the-badge&logo=typescript&logoColor=white)"),
   ("Python", "![Python](https://img.shields.io/badge/Python-3670A0?style=for-the-badge&logo=python&logoColor=ffdd54)"),
   ("Go", "![Go](https://img.shields.io/badge/Go-%2300ADD8.svg?style=for-the-badge&logo=go&logoColor=white)"),
   ("C", "![C](https://img.shields.io/badge/C-%2300599C.svg?style=for-the-badge&logo=c&logoColor=white)"),
   ("C++", "![C++](https://img.shields.io/badge/C++-%2300599C.svg?style=for-the-badge&logo=c%2B%2B&logoColor=white)"),
   ("C#", "![C#](https://img.shields.io/badge/C%23-%23239120.svg?style=for-the-badge&logo=csharp&logoColor=white)"),
   ("Rust", "![Rust](https://img.shields.io/badge/Rust-%23000000.svg?style=for-the-badge&logo=rust&logoColor=white)"),
   ("Shell", "![Bash](https://img.shields.io/badge/Bash-%23121011.svg?style=for-the-badge&logo=gnu-bash&logoColor=white)"),
   ("HTML", "![HTML5](https://img.shields.io/badge/HTML5-%23E34F26.svg?style=for-the-badge&logo=html5&logoColor=white)"),
   ("CSS", "![CSS3](https://img.shields.io/badge/CSS3-%231572B6.svg?style=for-the-badge&logo=css3&logoColor=white)"),
   ("Kotlin", "![Kotlin](https://img.shields.io/badge/Kotlin-%237F52FF.svg?style=for-the-badge&logo=kotlin&logoColor=white)"),
   ("Swift", "![Swift](https://img.shields.io/badge/Swift-F54A2A?style=for-the-badge&logo=swift&logoColor=white)"),
   ("Ruby", "![Ruby](https://img.shields.io/badge/Ruby-%23CC342D.svg?style=for-the-badge&logo=ruby&logoColor=white)"),
   ("PHP", "![PHP](https://img.shields.io/badge/PHP-%23777BB4.svg?style=for-the-badge&logo=php&logoColor=white)"),
   ("Scala", "![Scala](https://img.shields.io/badge/Scala-%23DC322F.svg?style=for-the-badge&logo=scala&logoColor=white)"),
   ("Dockerfile", "![Docker](https://img.shields.io/badge/Docker-%230db7ed.svg?style=for-the-badge&logo=docker&logoColor=white)")]

/-- Per-repository data as the aggregation loop (lines 88-94) consumes it:
the fork flag of the repo record and the language-to-bytes mapping returned
for it, as an insertion-ordered association list (Python dicts preserve
insertion order). -/
structure RepoLangs where
  fork : Bool
  langs : List (String × Nat)
deriving DecidableEq, Repr

/-- Python dict update totals[lang] = totals.get(lang, 0) + n: an existing key
keeps its position and gets the summed value, a new key is appended. -/
def addLang : List (String × Nat) → String → Nat → List (String × Nat)
  | [], l, n => [(l, n)]
  | (k, v) :: t, l, n => if k = l then (k, v + n) :: t else (k, v) :: addLang t l n

/-- Inner loop of detect_languages (lines 92-94): fold one repo's language
mapping into the running totals, skipping SKIP_LANGUAGES. -/
def addRepo (t : List (String × Nat)) (langs : List (String × Nat)) : List (String × Nat) :=
  langs.foldl (fun t p => if p.1 ∈ SKIP_LANGUAGES then t else addLang t p.1 p.2) t

/-- Outer loop of detect_languages (lines 87-94): aggregate all non-fork
repositories into the totals dict (starting empty). -/
def buildTotals (repos : List RepoLangs) : List (String × Nat) :=
  repos.foldl (fun t r => if r.fork then t else addRepo t r.langs) []

/-- Value of totals.get(l, 0): the accumulated byte count of a language,
0 when absent. -/
def lookupTally : List (String × Nat) → String → Nat
  | [], _ => 0
  | (k, v) :: t, l => if k = l then v else lookupTally t l

/-- Aggregated byte count of language l across the given repositories. -/
def tallyOf (repos : List RepoLangs) (l : String) : Nat :=
  lookupTally (buildTotals repos) l

/-- total_bytes = sum(totals.values()), line 100. -/
def totalBytes (t : List (String × Nat)) : Nat :=
  (t.map Prod.snd).sum

/-- Filter predicate of lines 102-105: (count / total_bytes * 100) >= MIN_PERCENT,
computed exactly over the rationals. -/
def keepLang (total : Nat) (p : String × Nat) : Bool :=
  decide (MIN_PERCENT ≤ (p.2 : ℚ) / (total : ℚ) * 100)

/-- Descending-byte-count relation used by sorted(filtered, key=filtered.get,
reverse=True), line 106. -/
def byBytesDesc (p q : String × Nat) : Prop :=
  q.2 ≤ p.2

instance : DecidableRel byBytesDesc :=
  fun p q => Nat.decLe q.2 p.2

instance : IsTotal (String × Nat) byBytesDesc :=
  ⟨fun a b => Nat.le_total b.2 a.2⟩

instance : IsTrans (String × Nat) byBytesDesc :=
  ⟨fun _ _ _ h1 h2 => Nat.le_trans h2 h1⟩

/-- Core of detect_languages (lines 87-109) on the already-fetched
per-repository language mappings: aggregate byte counts over non-fork repos
skipping SKIP_LANGUAGES, return [] when nothing was tallied, otherwise keep
languages at or above MIN_PERCENT of the total and sort them by byte count
descending (stable, as Python's sorted is; insertionSort is the same stable
sort written structurally). -/
def detect_languages (repos : List RepoLangs) : List String :=
  let totals := buildTotals repos
  if totals.isEmpty then []
  else
    let total := totalBytes totals
    let filtered := totals.filter (keepLang total)
    (List.insertionSort byBytesDesc filtered).map Prod.fst

-- ── Lemmas about the aggregation ──────────────────────────────────────────────

theorem lookupTally_addLang (t : List (String × Nat)) (l : String) (n : Nat) (x : String) :
    lookupTally (addLang t l n) x = lookupTally t x + (if x = l then n else 0) := by
  induction t with
  | nil =>
    by_cases h : x = l
    · subst h
      simp [addLang, lookupTally]
    · have h2 : l ≠ x := fun he => h he.symm
      simp [addLang, lookupTally, h, h2]
  | cons p t ih =>
    obtain ⟨k, v⟩ := p
    by_cases hkl : k = l
    · subst hkl
      by_cases hkx : k = x
      · subst hkx
        simp [addLang, lookupTally]
      · have h2 : x ≠ k := fun he => hkx he.symm
        simp [addLang, lookupTally, hkx, h2]
    · by_cases hkx : k = x
      · subst hkx
        simp [addLang, lookupTally, hkl]
      · simp [addLang, lookupTally, hkl, hkx, ih]

theorem keys_addLang (t : List (String × Nat)) (l : String) (n : Nat) :
    (addLang t l n).map Prod.fst =
      if l ∈ t.map Prod.fst then t.map Prod.fst else t.map Prod.fst ++ [l] := by
  induction t with
  | nil => simp [addLang]
  | cons p t ih =>
    obtain ⟨k, v⟩ := p
    by_cases hkl : k = l
    · subst hkl
      simp [addLang]
    · have h2 : l ≠ k := fun he => hkl he.symm
      by_cases hm : l ∈ t.map Prod.fst
      · simp [addLang, hkl, hm, ih, h2]
      · simp [addLang, hkl, hm, ih, h2]

theorem mem_keys_addLang {t : List (String × Nat)} {l x : String} {n : Nat} :
    x ∈ (addLang t l n).map Prod.fst ↔ x ∈ t.map Prod.fst ∨ x = l := by
  rw [keys_addLang]
  by_cases hm : l ∈ t.map Prod.fst
  · rw [if_pos hm]
    constructor
    · exact Or.inl
    · rintro (h | h)
      · exact h
      · exact h ▸ hm
  · rw [if_neg hm, List.mem_append, List.mem_singleton]

theorem nodupKeys_addLang {t : List (String × Nat)} {l : String} {n : Nat}
    (h : (t.map Prod.fst).Nodup) : ((addLang t l n).map Prod.fst).Nodup := by
  rw [keys_addLang]
  by_cases hm : l ∈ t.map Prod.fst
  · rwa [if_pos hm]
  · rw [if_neg hm]
    refine List.Nodup.append h (List.nodup_singleton l) ?_
    intro a ha hal
    rw [List.mem_singleton] at hal
    subst hal
    exact hm ha

theorem addRepo_invariant {t : List (String × Nat)} (langs : List (String × Nat))
    (hnd : (t.map Prod.fst).Nodup)
    (hskip : ∀ l ∈ SKIP_LANGUAGES, l ∉ t.map Prod.fst) :
    ((addRepo t langs).map Prod.fst).Nodup ∧
      ∀ l ∈ SKIP_LANGUAGES, l ∉ (addRepo t langs).map Prod.fst := by
  induction langs generalizing t with
  | nil => exact ⟨hnd, hskip⟩
  | cons p langs ih =>
    obtain ⟨k, v⟩ := p
    by_cases hk : k ∈ SKIP_LANGUAGES
    · simpa [addRepo, hk] using ih hnd hskip
    · have hstep : ∀ l ∈ SKIP_LANGUAGES, l ∉ (addLang t k v).map Prod.fst := by
        intro l hl hmem
        rw [mem_keys_addLang] at hmem
        rcases hmem with hmem | hmem
        · exact hskip l hl hmem
        · subst hmem
          exact hk hl
      simpa [addRepo, hk] using ih (nodupKeys_addLang hnd) hstep

theorem buildTotals_invariant (repos : List RepoLangs) :
    ((buildTotals repos).map Prod.fst).Nodup ∧
      ∀ l ∈ SKIP_LANGUAGES, l ∉ (buildTotals repos).map Prod.fst := by
  suffices h : ∀ (t : List (String × Nat)), (t.map Prod.fst).Nodup →
      (∀ l ∈ SKIP_LANGUAGES, l ∉ t.map Prod.fst) →
      ((repos.foldl (fun t r => if r.fork then t else addRepo t r.langs) t).map Prod.fst).Nodup ∧
        ∀ l ∈ SKIP_LANGUAGES,
          l ∉ (repos.foldl (fun t r => if r.fork then t else addRepo t r.langs) t).map Prod.fst by
    simpa [buildTotals] using h [] (by simp) (by simp)
  induction repos with
  | nil => intro t h1 h2; exact ⟨h1, h2⟩
  | cons r repos ih =>
    intro t h1 h2
    by_cases hf : r.fork
    · simpa [hf] using ih t h1 h2
    · have := addRepo_invariant r.langs h1 h2
      simpa [hf] using ih _ this.1 this.2

theorem lookupTally_eq_of_mem {t : List (String × Nat)} {l : String} {v : Nat}
    (hnd : (t.map Prod.fst).Nodup) (hmem : (l, v) ∈ t) : lookupTally t l = v := by
  induction t with
  | nil => simp at hmem
  | cons p t ih =>
    obtain ⟨k, w⟩ := p
    rw [List.map_cons, List.nodup_cons] at hnd
    rcases List.mem_cons.mp hmem with h | h
    · have h1 : k = l := congrArg Prod.fst h.symm
      have h2 : w = v := congrArg Prod.snd h.symm
      simp [lookupTally, h1, h2]
    · have hkl : k ≠ l := by
        intro he
        subst he
        exact hnd.1 (List.mem_map.mpr ⟨(k, v), h, rfl⟩)
      simp [lookupTally, hkl]
      exact ih hnd.2 h

theorem mem_of_lookupTally_ne_zero {t : List (String × Nat)} {l : String}
    (h : lookupTally t l ≠ 0) : (l, lookupTally t l) ∈ t := by
  induction t with
  | nil => simp [lookupTally] at h
  | cons p t ih =>
    obtain ⟨k, w⟩ := p
    by_cases hkl : k = l
    · subst hkl
      simp [lookupTally]
    · simp [lookupTally, hkl] at h ⊢
      right
      exact ih h

theorem mem_detect_iff (repos : List RepoLangs) (l : String) :
    l ∈ detect_languages repos ↔
      ∃ v, (l, v) ∈ buildTotals repos ∧
        keepLang (totalBytes (buildTotals repos)) (l, v) = true := by
  by_cases he : (buildTotals repos).isEmpty
  · rw [List.isEmpty_iff] at he
    simp [detect_languages, he]
  · simp only [detect_languages]
    rw [if_neg (by simpa using he)]
    constructor
    · intro h
      obtain ⟨p, hp, hfst⟩ := List.mem_map.mp h
      obtain ⟨a, b⟩ := p
      have hp2 := (List.perm_insertionSort byBytesDesc _).mem_iff.mp hp
      have hp3 := List.mem_filter.mp hp2
      cases hfst
      exact ⟨b, hp3.1, hp3.2⟩
    · rintro ⟨v, hmem, hkeep⟩
      apply List.mem_map.mpr
      refine ⟨(l, v), ?_, rfl⟩
      apply (List.perm_insertionSort byBytesDesc _).mem_iff.mpr
      exact List.mem_filter.mpr ⟨hmem, hkeep⟩

/-- C1: for every set of per-repository language mappings, a language in the
fixed skip set (Makefile, Markdown, Text, YAML, JSON, TOML, XML) never appears
as a key of the aggregated tally nor as an element of the sequence returned by
detect_languages, regardless of its byte volume. -/
theorem skip_languages_never_output (repos : List RepoLangs) (l : String)
    (h : l ∈ SKIP_LANGUAGES) :
    l ∉ (buildTotals repos).map Prod.fst ∧ l ∉ detect_languages repos := by
  have hinv := buildTotals_invariant repos
  refine ⟨hinv.2 l h, ?_⟩
  intro hmem
  obtain ⟨v, hv, _⟩ := (mem_detect_iff repos l).mp hmem
  exact hinv.2 l h (List.mem_map.mpr ⟨(l, v), hv, rfl⟩)

/-- Witness for C1: Makefile is in the skip set and, even contributing a
gigabyte in a non-fork repo, appears neither in the tally keys nor the output. -/
theorem skip_languages_never_output_witness :
    "Makefile" ∈ SKIP_LANGUAGES ∧
      ("Makefile" ∉ (buildTotals [⟨false, [("Makefile", 1000000000), ("Python", 1)]⟩]).map Prod.fst ∧
        "Makefile" ∉ detect_languages [⟨false, [("Makefile", 1000000000), ("Python", 1)]⟩]) :=
  ⟨by decide, skip_languages_never_output _ _ (by decide)⟩

/-- C2: for every set of per-repository language mappings, the sequence
returned by detect_languages is sorted by aggregated byte count in descending
order: no language with fewer aggregated bytes precedes one with more. -/
theorem detect_languages_sorted_desc (repos : List RepoLangs) :
    (detect_languages repos).Pairwise (fun a b => tallyOf repos b ≤ tallyOf repos a) := by
  by_cases he : (buildTotals repos).isEmpty
  · simp [detect_languages, he]
  · simp only [detect_languages]
    rw [if_neg (by simpa using he)]
    rw [List.pairwise_map]
    have hsorted : (List.insertionSort byBytesDesc
        ((buildTotals repos).filter (keepLang (totalBytes (buildTotals repos))))).Pairwise
        byBytesDesc :=
      List.sorted_insertionSort byBytesDesc _
    refine hsorted.imp_of_mem ?_
    intro a b ha hb hab
    have ha2 : a ∈ buildTotals repos :=
      List.mem_of_mem_filter ((List.perm_insertionSort _ _).mem_iff.mp ha)
    have hb2 : b ∈ buildTotals repos :=
      List.mem_of_mem_filter ((List.perm_insertionSort _ _).mem_iff.mp hb)
    have hnd := (buildTotals_invariant repos).1
    have hta : tallyOf repos a.1 = a.2 :=
      lookupTally_eq_of_mem hnd (by simpa using ha2)
    have htb : tallyOf repos b.1 = b.2 :=
      lookupTally_eq_of_mem hnd (by simpa using hb2)
    rw [hta, htb]
    exact hab

/-- C10: for every set of per-repository language mappings, the sequence
returned by detect_languages has no duplicate language names, since the
aggregation is keyed by language name. -/
theorem detect_languages_nodup (repos : List RepoLangs) :
    (detect_languages repos).Nodup := by
  by_cases he : (buildTotals repos).isEmpty
  · simp [detect_languages, he]
  · simp only [detect_languages]
    rw [if_neg (by simpa using he)]
    have hnd : ((buildTotals repos).map Prod.fst).Nodup := (buildTotals_invariant repos).1
    have hsub : List.Sublist
        (((buildTotals repos).filter (keepLang (totalBytes (buildTotals repos)))).map Prod.fst)
        ((buildTotals repos).map Prod.fst) :=
      (List.filter_sublist _).map Prod.fst
    have hnd2 := hnd.sublist hsub
    have hperm := (List.perm_insertionSort byBytesDesc
      ((buildTotals repos).filter (keepLang (totalBytes (buildTotals repos))))).map
      Prod.fst
    exact hperm.nodup_iff.mpr hnd2

/-- C3: whenever the aggregated total is positive, a language appears in
detect_languages' output if and only if its aggregated bytes divided by the
total aggregated bytes, times 100, is at least MIN_PERCENT = 0.5; the
boundary is inclusive because the filter uses a greater-or-equal test. -/
theorem detect_languages_min_percent (repos : List RepoLangs) (l : String)
    (_htot : 0 < totalBytes (buildTotals repos)) :
    l ∈ detect_languages repos ↔
      MIN_PERCENT ≤ (tallyOf repos l : ℚ) / (totalBytes (buildTotals repos) : ℚ) * 100 := by
  rw [mem_detect_iff]
  constructor
  · rintro ⟨v, hmem, hkeep⟩
    have hv : lookupTally (buildTotals repos) l = v :=
      lookupTally_eq_of_mem (buildTotals_invariant repos).1 hmem
    simp only [keepLang, decide_eq_true_eq] at hkeep
    unfold tallyOf
    rw [hv]
    exact hkeep
  · intro h
    have hne : lookupTally (buildTotals repos) l ≠ 0 := by
      intro h0
      unfold tallyOf at h
      rw [h0] at h
      norm_num [MIN_PERCENT] at h
    refine ⟨lookupTally (buildTotals repos) l, mem_of_lookupTally_ne_zero hne, ?_⟩
    simp only [keepLang, decide_eq_true_eq]
    exact h

/-- Witness for C3, from the spec's own example: with tallies
Python 995 and Dockerfile 5, the total is 1000, Dockerfile's share is exactly
0.5 percent, and it is retained (inclusive boundary). -/
theorem detect_languages_min_percent_witness :
    0 < totalBytes (buildTotals [⟨false, [("Python", 995), ("Dockerfile", 5)]⟩]) ∧
      "Dockerfile" ∈ detect_languages [⟨false, [("Python", 995), ("Dockerfile", 5)]⟩] :=
  ⟨by decide,
    (detect_languages_min_percent [⟨false, [("Python", 995), ("Dockerfile", 5)]⟩]
      "Dockerfile" (by decide)).mpr (by
        have h1 : tallyOf [⟨false, [("Python", 995), ("Dockerfile", 5)]⟩] "Dockerfile" = 5 := by
          decide
        have h2 : totalBytes (buildTotals [⟨false, [("Python", 995), ("Dockerfile", 5)]⟩]) = 1000 := by
          decide
        rw [h1, h2]
        norm_num [MIN_PERCENT])⟩

-- ── HTTP layer: headers, repository listing, per-repo language fetch ──────────

/-- Header dictionary built at lines 15-18: the Authorization entry is always
present, holding the string Bearer followed by the (possibly empty) token. -/
def HEADERS (token : String) : List (String × String) :=
  [("Authorization", "Bearer " ++ token), ("Accept", "application/vnd.github+json")]

/-- An outgoing HTTP GET request: its URL and its header list. -/
structure Request where
  url : String
  headers : List (String × String)
deriving DecidableEq, Repr

/-- Request issued for one page of the repository listing (lines 59-60). -/
def reposPageRequest (username token : String) (page : Nat) : Request :=
  ⟨"https://api.github.com/users/" ++ username ++ "/repos?per_page=100&page=" ++
      toString page ++ "&type=owner",
    HEADERS token⟩

/-- Request issued for one repository's language byte counts (lines 72-73). -/
def languagesRequest (username token repoName : String) : Request :=
  ⟨"https://api.github.com/repos/" ++ username ++ "/" ++ repoName ++ "/languages",
    HEADERS token⟩

/-- An HTTP response with its status code and already-decoded JSON body. -/
structure HttpResp (α : Type) where
  status : Nat
  body : α
deriving DecidableEq, Repr

/-- Repository record fields the script reads: name and fork flag. -/
structure RepoInfo where
  name : String
  fork : Bool
deriving DecidableEq, Repr

/-- get_repo_languages (lines 70-76): a 200 response yields its body, any
other status yields the empty mapping. -/
def get_repo_languages (resp : HttpResp (List (String × Nat))) : List (String × Nat) :=
  if resp.status = 200 then resp.body else []

/-- Loop body of get_all_repos (lines 54-67): resp.raise_for_status() raises
for any status of 400 or above (modelled as Except.error carrying the status),
an empty page ends the loop, otherwise the page is appended and the page index
incremented.  The while-True loop is given fuel; running out of fuel returns
the accumulator (the source loop would keep requesting pages, so theorems
always supply enough fuel for the pages they describe). -/
def get_all_reposF (pages : Nat → HttpResp (List RepoInfo)) :
    Nat → Nat → List RepoInfo → Except Nat (List RepoInfo)
  | 0, _, acc => .ok acc
  | fuel + 1, page, acc =>
    let resp := pages page
    if 400 ≤ resp.status then .error resp.status
    else if resp.body = [] then .ok acc
    else get_all_reposF pages fuel (page + 1) (acc ++ resp.body)

/-- get_all_repos: paginate from page 1 with an empty accumulator. -/
def get_all_repos (pages : Nat → HttpResp (List RepoInfo)) (fuel : Nat) :
    Except Nat (List RepoInfo) :=
  get_all_reposF pages fuel 1 []

/-- Full detect_languages run (lines 81-109) over response oracles: list the
repositories (any listing failure propagates), fetch each repository's
languages through get_repo_languages, and aggregate with the pure core. -/
def detect_languages_run (pages : Nat → HttpResp (List RepoInfo))
    (langOf : String → HttpResp (List (String × Nat))) (fuel : Nat) :
    Except Nat (List String) :=
  match get_all_repos pages fuel with
  | .error e => .error e
  | .ok repos =>
      .ok (detect_languages (repos.map fun r => ⟨r.fork, get_repo_languages (langOf r.name)⟩))

theorem get_all_reposF_error (pages : Nat → HttpResp (List RepoInfo)) (k : Nat)
    (hk : 400 ≤ (pages k).status)
    (hbefore : ∀ j, 1 ≤ j → j < k → (pages j).status < 400 ∧ (pages j).body ≠ []) :
    ∀ fuel page acc, 1 ≤ page → page ≤ k → k - page < fuel →
      get_all_reposF pages fuel page acc = .error (pages k).status := by
  intro fuel
  induction fuel with
  | zero => intro page acc _ _ h; omega
  | succ fuel ih =>
    intro page acc hp1 hpk hlt
    by_cases hpage : page = k
    · subst hpage
      simp [get_all_reposF, hk]
    · have hplt : page < k := lt_of_le_of_ne hpk hpage
      have h := hbefore page hp1 hplt
      simp only [get_all_reposF]
      rw [if_neg (by omega), if_neg h.2]
      exact ih (page + 1) _ (by omega) (by omega) (by omega)

/-- Counterexample for C5: with an empty token the requests of both endpoints
still carry an Authorization header, holding the malformed value Bearer
followed by nothing — they do not proceed without bearer-token authorization
as the claim states. -/
theorem empty_token_still_sends_bearer :
    (reposPageRequest "nikomakr" "" 1).headers.lookup "Authorization" = some "Bearer " ∧
      (languagesRequest "nikomakr" "" "somerepo").headers.lookup "Authorization" =
        some "Bearer " ∧
      ¬ (reposPageRequest "nikomakr" "" 1).headers.lookup "Authorization" = none := by
  refine ⟨rfl, rfl, ?_⟩
  intro h
  simp [reposPageRequest, HEADERS, List.lookup] at h

/-- C5 amended: every request of get_all_repos and get_repo_languages carries
the Authorization header with value Bearer followed by the configured token —
including the empty token, in which case the header is still attached with an
empty bearer credential rather than being omitted. -/
theorem bearer_header_always_attached (username token repoName : String) (page : Nat) :
    (reposPageRequest username token page).headers.lookup "Authorization" =
        some ("Bearer " ++ token) ∧
      (languagesRequest username token repoName).headers.lookup "Authorization" =
        some ("Bearer " ++ token) := by
  constructor <;> rfl

/-- Witness for C5's amended theorem at a concrete username, token, repo and
page. -/
theorem bearer_header_always_attached_witness :
    (reposPageRequest "nikomakr" "tok123" 1).headers.lookup "Authorization" =
        some ("Bearer " ++ "tok123") ∧
      (languagesRequest "nikomakr" "tok123" "somerepo").headers.lookup "Authorization" =
        some ("Bearer " ++ "tok123") :=
  bearer_header_always_attached "nikomakr" "tok123" "somerepo" 1

/-- C8: the failure asymmetry.  First, a non-success response while fetching a
single repository's languages yields the empty mapping (and hence merely
degrades that repository's contribution).  Second, whenever the repository
listing succeeds, the whole run returns successfully no matter what the
per-repository language endpoint answers — per-repository failures never
surface to the caller.  Third, a non-success response while listing
repositories (the first page with status 400 or above, all earlier pages
succeeding and non-empty) makes get_all_repos and the whole run abort with
that error: no retry, no partial result. -/
theorem listing_fatal_languages_tolerated :
    (∀ resp : HttpResp (List (String × Nat)), resp.status ≠ 200 →
        get_repo_languages resp = []) ∧
      (∀ pages langOf fuel repos, get_all_repos pages fuel = .ok repos →
        detect_languages_run pages langOf fuel =
          .ok (detect_languages (repos.map fun r =>
            ⟨r.fork, get_repo_languages (langOf r.name)⟩))) ∧
      ∀ pages langOf fuel k, 400 ≤ (pages k).status →
        (∀ j, 1 ≤ j → j < k → (pages j).status < 400 ∧ (pages j).body ≠ []) →
        1 ≤ k → k - 1 < fuel →
        get_all_repos pages fuel = .error (pages k).status ∧
          detect_languages_run pages langOf fuel = .error (pages k).status := by
  refine ⟨?_, ?_, ?_⟩
  · intro resp h
    simp [get_repo_languages, h]
  · intro pages langOf fuel repos h
    simp [detect_languages_run, h]
  · intro pages langOf fuel k hk hbefore hk1 hfuel
    have herr : get_all_repos pages fuel = .error (pages k).status :=
      get_all_reposF_error pages k hk hbefore fuel 1 [] le_rfl hk1 hfuel
    exact ⟨herr, by simp [detect_languages_run, herr]⟩

/-- Witness for C8: a concrete run where page 1 succeeds with one repository,
page 2 answers 500: the listing (and the run) aborts with error 500; and a
404 language response maps to the empty tally. -/
theorem listing_fatal_languages_tolerated_witness :
    ((⟨404, [("Python", 10)]⟩ : HttpResp (List (String × Nat))).status ≠ 200 ∧
        get_repo_languages ⟨404, [("Python", 10)]⟩ = []) ∧
      get_all_repos
          (fun p => if p = 1 then ⟨200, [⟨"r1", false⟩]⟩ else ⟨500, []⟩) 5 =
        .error 500 := by
  constructor
  · exact ⟨by decide, listing_fatal_languages_tolerated.1 _ (by decide)⟩
  · have h := (listing_fatal_languages_tolerated.2.2
      (fun p => if p = 1 then ⟨200, [⟨"r1", false⟩]⟩ else ⟨500, []⟩)
      (fun _ => ⟨200, []⟩) 5 2 (by decide)
      (by
        intro j h1 h2
        have hj : j = 1 := by omega
        subst hj
        exact ⟨by decide, by decide⟩)
      (by decide) (by decide)).1
    simpa using h

-- ── README splicing (update_readme, lines 133-156) ────────────────────────────

/-- Start sentinel literal of the managed region. -/
def startSentinel : List Char := "<!-- TECH-STACK-START -->".data

/-- End sentinel literal of the managed region. -/
def endSentinel : List Char := "<!-- TECH-STACK-END -->".data

/-- Anchor heading searched for by the first-time-insert path (line 146). -/
def markerHeading : List Char := "## 📊 GitHub Stats".data

/-- Horizontal-rule separator inserted after the section on the insert path
(line 148). -/
def hrSeparator : List Char := "\n\n---\n\n".data

/-- Blank-line gap used by the append fallback (line 152). -/
def blankGap : List Char := "\n\n".data

/-- Boolean test that pat is a leading segment of s. -/
def leadsWith : List Char → List Char → Bool
  | [], _ => true
  | _ :: _, [] => false
  | p :: ps, c :: cs => p == c && leadsWith ps cs

/-- First occurrence of pat inside s: splitFirst pat s = some (b, a) means
s = b ++ pat ++ a and no occurrence of pat starts earlier than b.length.
This is the primitive both re.search/re.sub (leftmost match) and
str.replace/the in operator reduce to for the fixed literal patterns used
by update_readme. -/
def splitFirst (pat : List Char) : List Char → Option (List Char × List Char)
  | [] => if pat.isEmpty then some ([], []) else none
  | c :: cs =>
    if leadsWith pat (c :: cs) then some ([], (c :: cs).drop pat.length)
    else
      match splitFirst pat cs with
      | some (b, a) => some (c :: b, a)
      | none => none

/-- First match of the lazy pattern START.*?END under re.DOTALL: it begins at
the first start sentinel and ends at the first end sentinel after it (first
position where the whole pattern can match, then the shortest extension).
Returns the text before the match and the text after it. -/
def matchRegion (s : List Char) : Option (List Char × List Char) :=
  match splitFirst startSentinel s with
  | none => none
  | some (p, rest) =>
    match splitFirst endSentinel rest with
    | none => none
    | some (_, suf) => some (p, suf)

/-- Fuelled worker for re.sub: replace every non-overlapping match from left
to right, resuming after each replacement (the replacement text is not
rescanned). -/
def subAllF : Nat → List Char → List Char → List Char
  | 0, _, s => s
  | fuel + 1, sec, s =>
    match matchRegion s with
    | none => s
    | some (p, suf) => p ++ sec ++ subAllF fuel sec suf

/-- re.sub(pattern, sec, s, flags=re.DOTALL): the fuel s.length always
suffices because each match consumes at least one character. -/
def subAll (sec s : List Char) : List Char := subAllF s.length sec s

/-- Fuelled worker for str.replace: replace every non-overlapping occurrence
of the marker heading from left to right, without rescanning replacements. -/
def replaceMF : Nat → List Char → List Char → List Char
  | 0, _, s => s
  | fuel + 1, ins, s =>
    match splitFirst markerHeading s with
    | none => s
    | some (a, b) => a ++ ins ++ replaceMF fuel ins b

/-- content.replace(marker, ins), line 148. -/
def replaceMarker (ins s : List Char) : List Char := replaceMF s.length ins s

/-- Known languages: those present in BADGE_MAP, input order kept (line 114). -/
def knownLanguages (langs : List String) : List String :=
  langs.filter (fun l => (BADGE_MAP.lookup l).isSome)

/-- Unknown languages: those absent from BADGE_MAP, input order kept (line 115). -/
def unknownLanguages (langs : List String) : List String :=
  langs.filter (fun l => !(BADGE_MAP.lookup l).isSome)

/-- badges = newline-joined badge lines of the known languages (line 117). -/
def badgesBlock (langs : List String) : String :=
  String.intercalate "\n" ((knownLanguages langs).map (fun l => (BADGE_MAP.lookup l).getD ""))

/-- note = comment line listing unknown languages, empty when there are none
(lines 119-121). -/
def noteBlock (langs : List String) : String :=
  if unknownLanguages langs = [] then ""
  else "\n<!-- Also detected (no badge yet): " ++
    String.intercalate ", " (unknownLanguages langs) ++ " -->"

/-- Interior of the rendered section between the two sentinels (lines 123-129). -/
def sectionBody (langs : List String) : List Char :=
  ("\n## 🛠️ Tech Stack\n> Auto-detected from my repositories\n\n" ++
    badgesBlock langs ++ noteBlock langs ++ "\n\n").data

/-- build_tech_stack_section (lines 112-130): the rendered markdown block,
literally the start sentinel, the body, and the end sentinel. -/
def build_tech_stack_section (langs : List String) : List Char :=
  startSentinel ++ sectionBody langs ++ endSentinel

/-- update_readme's pure transformation (lines 138-153): replace every
match of the lazy region pattern if one exists, else insert before every
occurrence of the marker heading, else append after a blank line.
(re.sub's replacement-string escape processing is ignored: the sections fed
to it contain no backslashes.) -/
def update_readme (newSection content : List Char) : List Char :=
  if (matchRegion content).isSome then subAll newSection content
  else if (splitFirst markerHeading content).isSome then
    replaceMarker (newSection ++ hrSeparator ++ markerHeading) content
  else content ++ blankGap ++ newSection

theorem leadsWith_iff (p s : List Char) : leadsWith p s = true ↔ p <+: s := by
  induction p generalizing s with
  | nil => simp [leadsWith]
  | cons a p ih =>
    cases s with
    | nil => simp [leadsWith]
    | cons c cs => simp [leadsWith, List.cons_prefix_cons, ih]

theorem splitFirst_decomp {pat s b a : List Char} (h : splitFirst pat s = some (b, a)) :
    s = b ++ pat ++ a := by
  induction s generalizing b a with
  | nil =>
    by_cases hp : pat.isEmpty
    · rw [splitFirst, if_pos hp] at h
      have hpn : pat = [] := by
        cases pat
        · rfl
        · simp [List.isEmpty] at hp
      cases h
      simp [hpn]
    · rw [splitFirst, if_neg hp] at h
      exact absurd h (by simp)
  | cons c cs ih =>
    rw [splitFirst] at h
    by_cases hl : leadsWith pat (c :: cs) = true
    · rw [if_pos hl] at h
      obtain ⟨t, ht⟩ := (leadsWith_iff pat (c :: cs)).mp hl
      cases h
      have hdrop : (pat ++ t).drop pat.length = t := List.drop_left pat t
      rw [← ht, hdrop]
      simp
    · rw [if_neg hl] at h
      cases hrec : splitFirst pat cs with
      | none =>
        rw [hrec] at h
        exact absurd h (by simp)
      | some pa =>
        obtain ⟨b2, a2⟩ := pa
        rw [hrec] at h
        cases h
        have := ih hrec
        simp [this]

theorem splitFirst_none_iff {pat s : List Char} (hne : pat ≠ []) :
    splitFirst pat s = none ↔ ¬ pat <:+: s := by
  induction s with
  | nil =>
    have hp : pat.isEmpty = false := by
      cases pat
      · exact absurd rfl hne
      · rfl
    rw [splitFirst, hp]
    simp only [Bool.false_eq_true, if_false]
    constructor
    · intro _ hinf
      exact hne (List.sublist_nil.mp hinf.sublist)
    · intro _
      trivial
  | cons c cs ih =>
    rw [splitFirst]
    by_cases hl : leadsWith pat (c :: cs) = true
    · rw [if_pos hl]
      constructor
      · intro h
        exact absurd h (by simp)
      · intro hni
        exfalso
        obtain ⟨t, ht⟩ := (leadsWith_iff pat (c :: cs)).mp hl
        exact hni ⟨[], t, by simpa using ht⟩
    · rw [if_neg hl]
      cases hrec : splitFirst pat cs with
      | none =>
        have h1 : ¬ pat <:+: cs := ih.mp hrec
        have h2 : ¬ pat <+: (c :: cs) := fun hp => hl ((leadsWith_iff pat (c :: cs)).mpr hp)
        constructor
        · intro _ hinf
          obtain ⟨x, y, hxy⟩ := hinf
          cases x with
          | nil => exact h2 ⟨y, by simpa using hxy⟩
          | cons d x2 =>
            rw [List.cons_append, List.cons_append] at hxy
            injection hxy with hd htail
            exact h1 ⟨x2, y, htail⟩
        · intro _
          rfl
      | some pa =>
        obtain ⟨b2, a2⟩ := pa
        constructor
        · intro h
          exact absurd h (by simp)
        · intro hni
          exfalso
          have hcs := splitFirst_decomp hrec
          exact hni ⟨c :: b2, a2, by simp [hcs]⟩

theorem splitFirst_isSome_of_mem {pat s : List Char} (hne : pat ≠ []) (h : pat <:+: s) :
    (splitFirst pat s).isSome = true := by
  cases hsp : splitFirst pat s with
  | none => exact absurd h ((splitFirst_none_iff hne).mp hsp)
  | some pa => rfl

theorem splitFirst_min {pat s b a : List Char} (h : splitFirst pat s = some (b, a)) :
    ∀ x y, s = x ++ pat ++ y → b.length ≤ x.length := by
  induction s generalizing b a with
  | nil =>
    intro x y hs
    by_cases hp : pat.isEmpty
    · rw [splitFirst, if_pos hp] at h
      cases h
      simp
    · rw [splitFirst, if_neg hp] at h
      exact absurd h (by simp)
  | cons c cs ih =>
    intro x y hs
    rw [splitFirst] at h
    by_cases hl : leadsWith pat (c :: cs) = true
    · rw [if_pos hl] at h
      cases h
      simp
    · rw [if_neg hl] at h
      cases hrec : splitFirst pat cs with
      | none =>
        rw [hrec] at h
        exact absurd h (by simp)
      | some pa =>
        obtain ⟨b2, a2⟩ := pa
        rw [hrec] at h
        cases h
        cases x with
        | nil =>
          exfalso
          apply hl
          apply (leadsWith_iff pat (c :: cs)).mpr
          exact ⟨y, by simpa using hs.symm⟩
        | cons d x2 =>
          rw [List.cons_append, List.cons_append] at hs
          injection hs with hd htail
          have := ih hrec x2 y htail
          simpa using Nat.succ_le_succ this

theorem tail_suffix_of_occurrence {pat s b a x y : List Char}
    (h : splitFirst pat s = some (b, a)) (hs : s = x ++ pat ++ y) : y <:+ a := by
  have hd := splitFirst_decomp h
  have hmin := splitFirst_min h x y hs
  have ha : (b ++ pat ++ a).drop (b.length + pat.length) = a := by
    have h3 := List.drop_left (b ++ pat) a
    rwa [List.length_append] at h3
  have hy2 : (x ++ pat ++ y).drop (x.length + pat.length) = y := by
    have h3 := List.drop_left (x ++ pat) y
    rwa [List.length_append] at h3
  have hm : x.length + pat.length = (b.length + pat.length) + (x.length - b.length) := by
    omega
  have key : y = a.drop (x.length - b.length) := by
    rw [← hy2, ← hs, hm, ← List.drop_drop, hd, ha]
  rw [key]
  exact List.drop_suffix _ _

theorem head_no_occurrence {pat s b a : List Char} (h : splitFirst pat s = some (b, a))
    (hne : pat ≠ []) : ¬ pat <:+: b := by
  rintro ⟨u, v, huv⟩
  have hd := splitFirst_decomp h
  have hs : s = u ++ pat ++ (v ++ pat ++ a) := by
    rw [hd, ← huv]
    simp
  have hmin := splitFirst_min h u (v ++ pat ++ a) hs
  have hb : b.length = u.length + pat.length + v.length := by
    rw [← huv, List.append_assoc, List.length_append, List.length_append]
    omega
  have hp : 0 < pat.length := List.length_pos.mpr hne
  omega

theorem matchRegion_nil : matchRegion ([] : List Char) = none := by
  have h : splitFirst startSentinel [] = none := by
    rw [splitFirst]
    decide
  rw [matchRegion, h]

theorem matchRegion_decomp {s p suf : List Char} (h : matchRegion s = some (p, suf)) :
    ∃ rest mid, splitFirst startSentinel s = some (p, rest) ∧
      splitFirst endSentinel rest = some (mid, suf) ∧
      s = p ++ startSentinel ++ mid ++ endSentinel ++ suf := by
  cases h1 : splitFirst startSentinel s with
  | none =>
    simp [matchRegion, h1] at h
  | some pr =>
    obtain ⟨p2, rest⟩ := pr
    cases h2 : splitFirst endSentinel rest with
    | none =>
      simp [matchRegion, h1, h2] at h
    | some ms =>
      obtain ⟨mid, suf2⟩ := ms
      simp only [matchRegion, h1, h2] at h
      obtain ⟨hp, hsuf⟩ := Prod.mk.injEq .. ▸ Option.some.injEq .. ▸ h
      subst hp
      subst hsuf
      refine ⟨rest, mid, rfl, h2, ?_⟩
      have hs := splitFirst_decomp h1
      have hr := splitFirst_decomp h2
      rw [hs, hr]
      simp

theorem matchRegion_suf_lt {s p suf : List Char} (h : matchRegion s = some (p, suf)) :
    suf.length < s.length := by
  obtain ⟨rest, mid, h1, h2, hs⟩ := matchRegion_decomp h
  have hpos : 0 < startSentinel.length := by decide
  rw [hs]
  simp only [List.length_append]
  omega

theorem subAllF_congr (sec : List Char) :
    ∀ f1 f2 s, s.length ≤ f1 → s.length ≤ f2 → subAllF f1 sec s = subAllF f2 sec s := by
  intro f1
  induction f1 with
  | zero =>
    intro f2 s h1 _
    have hs : s = [] := List.length_eq_zero.mp (Nat.le_zero.mp h1)
    subst hs
    cases f2 with
    | zero => rfl
    | succ f2 => simp [subAllF, matchRegion_nil]
  | succ f1 ih =>
    intro f2 s h1 h2
    cases f2 with
    | zero =>
      have hs : s = [] := List.length_eq_zero.mp (Nat.le_zero.mp h2)
      subst hs
      simp [subAllF, matchRegion_nil]
    | succ f2 =>
      simp only [subAllF]
      cases hm : matchRegion s with
      | none => rfl
      | some psuf =>
        obtain ⟨p, suf⟩ := psuf
        have hlt := matchRegion_suf_lt hm
        show p ++ sec ++ subAllF f1 sec suf = p ++ sec ++ subAllF f2 sec suf
        rw [ih f2 suf (by omega) (by omega)]

theorem subAll_eq (sec s : List Char) :
    subAll sec s =
      match matchRegion s with
      | none => s
      | some (p, suf) => p ++ sec ++ subAll sec suf := by
  unfold subAll
  cases hm : matchRegion s with
  | none =>
    cases hl : s.length with
    | zero => rfl
    | succ n => simp [subAllF, hm]
  | some psuf =>
    obtain ⟨p, suf⟩ := psuf
    have hlt := matchRegion_suf_lt hm
    cases hl : s.length with
    | zero => omega
    | succ n =>
      simp only [subAllF, hm]
      show p ++ sec ++ subAllF n sec suf = p ++ sec ++ subAllF suf.length sec suf
      rw [subAllF_congr sec n suf.length suf (by omega) le_rfl]

theorem splitFirst_tail_lt {pat s b a : List Char} (h : splitFirst pat s = some (b, a))
    (hne : pat ≠ []) : a.length < s.length := by
  have hd := splitFirst_decomp h
  have hp : 0 < pat.length := List.length_pos.mpr hne
  rw [hd]
  simp only [List.length_append]
  omega

theorem replaceMF_congr (ins : List Char) :
    ∀ f1 f2 s, s.length ≤ f1 → s.length ≤ f2 → replaceMF f1 ins s = replaceMF f2 ins s := by
  have hmne : markerHeading ≠ [] := by decide
  have hnil : splitFirst markerHeading [] = none := by
    rw [splitFirst]
    decide
  intro f1
  induction f1 with
  | zero =>
    intro f2 s h1 _
    have hs : s = [] := List.length_eq_zero.mp (Nat.le_zero.mp h1)
    subst hs
    cases f2 with
    | zero => rfl
    | succ f2 => simp [replaceMF, hnil]
  | succ f1 ih =>
    intro f2 s h1 h2
    cases f2 with
    | zero =>
      have hs : s = [] := List.length_eq_zero.mp (Nat.le_zero.mp h2)
      subst hs
      simp [replaceMF, hnil]
    | succ f2 =>
      simp only [replaceMF]
      cases hm : splitFirst markerHeading s with
      | none => rfl
      | some ab =>
        obtain ⟨a, b⟩ := ab
        have hlt := splitFirst_tail_lt hm hmne
        show a ++ ins ++ replaceMF f1 ins b = a ++ ins ++ replaceMF f2 ins b
        rw [ih f2 b (by omega) (by omega)]

theorem replaceMarker_eq (ins s : List Char) :
    replaceMarker ins s =
      match splitFirst markerHeading s with
      | none => s
      | some (a, b) => a ++ ins ++ replaceMarker ins b := by
  have hmne : markerHeading ≠ [] := by decide
  unfold replaceMarker
  cases hm : splitFirst markerHeading s with
  | none =>
    cases hl : s.length with
    | zero => rfl
    | succ n => simp [replaceMF, hm]
  | some ab =>
    obtain ⟨a, b⟩ := ab
    have hlt := splitFirst_tail_lt hm hmne
    cases hl : s.length with
    | zero => omega
    | succ n =>
      simp only [replaceMF, hm]
      show a ++ ins ++ replaceMF n ins b = a ++ ins ++ replaceMF b.length ins b
      rw [replaceMF_congr ins n b.length b (by omega) le_rfl]

theorem leading_within {pat u : List Char} (hlen : pat.length ≤ u.length) (r : List Char) :
    pat <+: u ++ r ↔ pat <+: u := by
  constructor
  · intro h
    obtain ⟨t, ht⟩ := h
    have h1 : (u ++ r).take pat.length = pat := by
      rw [← ht]
      exact List.take_left' rfl
    have h2 : (u ++ r).take pat.length = u.take pat.length := by
      rw [List.take_append_eq_append_take, Nat.sub_eq_zero_of_le hlen]
      simp
    have h3 : pat = u.take pat.length := h1.symm.trans h2
    refine ⟨u.drop pat.length, ?_⟩
    nth_rewrite 1 [h3]
    exact List.take_append_drop pat.length u
  · rintro ⟨t, ht⟩
    exact ⟨t ++ r, by rw [← List.append_assoc, ht]⟩

theorem splitFirst_at_self (pat r : List Char) : splitFirst pat (pat ++ r) = some ([], r) := by
  cases hp : pat with
  | nil =>
    cases r with
    | nil => rfl
    | cons c cs =>
      rw [List.nil_append, splitFirst]
      simp [leadsWith]
  | cons c cs =>
    rw [List.cons_append, splitFirst]
    have hl : leadsWith (c :: cs) (c :: (cs ++ r)) = true :=
      (leadsWith_iff _ _).mpr ⟨r, by simp⟩
    rw [if_pos hl]
    have hd := List.drop_left (c :: cs) r
    rw [List.cons_append] at hd
    rw [hd]

theorem splitFirst_transfer {pat : List Char} :
    ∀ p r1 r2, splitFirst pat (p ++ pat ++ r1) = some (p, r1) →
      splitFirst pat (p ++ pat ++ r2) = some (p, r2) := by
  intro p
  induction p with
  | nil =>
    intro r1 r2 _
    simpa using splitFirst_at_self pat r2
  | cons c p ih =>
    intro r1 r2 h
    rw [List.cons_append, List.cons_append] at h
    rw [splitFirst] at h
    rw [List.cons_append, List.cons_append, splitFirst]
    by_cases hl : leadsWith pat (c :: (p ++ pat ++ r1)) = true
    · rw [if_pos hl] at h
      exact absurd h (by simp)
    · rw [if_neg hl] at h
      have hlen : pat.length ≤ (c :: (p ++ pat)).length := by
        simp
        omega
      have hl2 : ¬ leadsWith pat (c :: (p ++ pat ++ r2)) = true := by
        intro h2
        apply hl
        apply (leadsWith_iff _ _).mpr
        have hpre := (leadsWith_iff _ _).mp h2
        rw [show c :: (p ++ pat ++ r2) = (c :: (p ++ pat)) ++ r2 by simp] at hpre
        have hpre2 := (leading_within hlen r2).mp hpre
        rw [show c :: (p ++ pat ++ r1) = (c :: (p ++ pat)) ++ r1 by simp]
        exact (leading_within hlen r1).mpr hpre2
      rw [if_neg hl2]
      cases hrec : splitFirst pat (p ++ pat ++ r1) with
      | none =>
        rw [hrec] at h
        exact absurd h (by simp)
      | some ba =>
        obtain ⟨b, a⟩ := ba
        rw [hrec] at h
        have hba : b = p ∧ a = r1 := by
          have h2 : (c :: b, a) = (c :: p, r1) := by simpa using h
          have hb := congrArg Prod.fst h2
          have ha := congrArg Prod.snd h2
          simp at hb ha
          exact ⟨hb, ha⟩
        obtain ⟨hb, ha⟩ := hba
        rw [hb, ha] at hrec
        rw [ih r1 r2 hrec]

theorem leading_append_cases {l c v : List Char} (h : l <+: c ++ v) :
    l <+: c ∨ ∃ l2, l = c ++ l2 ∧ l2 <+: v := by
  by_cases hlen : l.length ≤ c.length
  · left
    exact (leading_within hlen v).mp h
  · right
    have hpe := List.prefix_iff_eq_take.mp h
    rw [List.take_append_eq_append_take] at hpe
    rw [List.take_of_length_le (by omega)] at hpe
    exact ⟨v.take (l.length - c.length), hpe,
      v.drop (l.length - c.length), List.take_append_drop _ _⟩

theorem infix_append_cases {l c v : List Char} (h : l <:+: c ++ v) :
    l <:+: c ∨ l <:+: v ∨
      ∃ l1 l2, l = l1 ++ l2 ∧ l1 ≠ [] ∧ l2 ≠ [] ∧ l1 <:+ c ∧ l2 <+: v := by
  obtain ⟨x, y, hxy⟩ := h
  by_cases hx : c.length ≤ x.length
  · right
    left
    have hv := congrArg (List.drop c.length) hxy
    have h1 : c.length - x.length = 0 := by omega
    have h2 : c.length - (x ++ l).length = 0 := by
      rw [List.length_append]
      omega
    rw [List.drop_append_eq_append_drop, List.drop_append_eq_append_drop,
      List.drop_append_eq_append_drop, h1, h2, Nat.sub_self, List.drop_zero, List.drop_zero,
      List.drop_zero, List.drop_length] at hv
    exact ⟨x.drop c.length, y, by simpa using hv⟩
  · have hd := congrArg (List.drop x.length) hxy
    have h1 : x.length - (x ++ l).length = 0 := by
      rw [List.length_append]
      omega
    have h2 : x.length - c.length = 0 := by omega
    rw [List.drop_append_eq_append_drop, List.drop_append_eq_append_drop,
      List.drop_append_eq_append_drop, h1, h2, Nat.sub_self, List.drop_zero, List.drop_zero,
      List.drop_length] at hd
    have hpre : l <+: (c.drop x.length ++ v) := ⟨y, by simpa using hd⟩
    rcases leading_append_cases hpre with hcase | ⟨l2, hl2, hl2v⟩
    · left
      obtain ⟨t, ht⟩ := hcase
      refine ⟨c.take x.length, t, ?_⟩
      rw [List.append_assoc, ht, List.take_append_drop]
    · by_cases hcd : c.drop x.length = []
      · exfalso
        have := List.drop_eq_nil_iff.mp hcd
        omega
      · by_cases hl2e : l2 = []
        · left
          rw [hl2e, List.append_nil] at hl2
          refine ⟨c.take x.length, [], ?_⟩
          rw [List.append_nil, hl2, List.take_append_drop]
        · right
          right
          exact ⟨c.drop x.length, l2, hl2, hcd, hl2e, List.drop_suffix _ _, hl2v⟩

theorem no_head_char_left {pat u w : List Char} {ch : Char} (hh : pat.head? = some ch)
    (hu : ch ∉ u) (h : pat <:+: u ++ w) : pat <:+: w := by
  rcases infix_append_cases h with hc | hc | ⟨l1, l2, heq, hl1e, _, hsuf, _⟩
  · exfalso
    apply hu
    apply hc.subset
    exact List.mem_of_mem_head? (by simp [hh])
  · exact hc
  · exfalso
    apply hu
    apply hsuf.subset
    cases l1 with
    | nil => exact absurd rfl hl1e
    | cons a t =>
      rw [heq] at hh
      have h2 : a = ch := by simpa using hh
      rw [h2]
      exact List.mem_cons_self _ _

theorem no_pat_chars_right {pat c v : List Char} (hdisj : ∀ ch ∈ v, ch ∉ pat)
    (hne : pat ≠ []) (h : pat <:+: c ++ v) : pat <:+: c := by
  rcases infix_append_cases h with hc | hc | ⟨l1, l2, heq, _, hl2e, _, hpre⟩
  · exact hc
  · exfalso
    cases hp : pat with
    | nil => exact hne hp
    | cons a t =>
      rw [hp] at hc
      exact hdisj a (hc.subset (List.mem_cons_self _ _)) (hp ▸ List.mem_cons_self a t)
  · exfalso
    cases l2 with
    | nil => exact absurd rfl hl2e
    | cons a t =>
      have hav : a ∈ v := hpre.subset (List.mem_cons_self _ _)
      have hap : a ∈ pat := by
        rw [heq]
        exact List.mem_append.mpr (Or.inr (List.mem_cons_self _ _))
      exact hdisj a hav hap

theorem startSentinel_no_self_overlap :
    ∀ k, k < 25 → 1 ≤ k → startSentinel.drop k ≠ startSentinel.take (25 - k) := by
  decide

theorem startSentinel_length : startSentinel.length = 25 := by decide

theorem startSplit_here {a : List Char} (ha : ¬ startSentinel <:+: a) :
    ∀ r, splitFirst startSentinel (a ++ startSentinel ++ r) = some (a, r) := by
  induction a with
  | nil =>
    intro r
    simpa using splitFirst_at_self startSentinel r
  | cons ch a ih =>
    intro r
    have ha2 : ¬ startSentinel <:+: a := by
      rintro ⟨x, y, hxy⟩
      exact ha ⟨ch :: x, y, by simp [← hxy]⟩
    rw [List.cons_append, List.cons_append, splitFirst]
    have hnp : ¬ leadsWith startSentinel (ch :: (a ++ startSentinel ++ r)) = true := by
      intro hl
      have hpre := (leadsWith_iff _ _).mp hl
      have hform : ch :: (a ++ startSentinel ++ r) = (ch :: a) ++ (startSentinel ++ r) := by
        simp
      rw [hform] at hpre
      by_cases hcase : startSentinel.length ≤ (ch :: a).length
      · have hin : startSentinel <+: (ch :: a) :=
          (leading_within hcase (startSentinel ++ r)).mp hpre
        obtain ⟨t, ht⟩ := hin
        exact ha ⟨[], t, by simpa using ht⟩
      · have hk25 : (ch :: a).length < 25 := by
          rw [startSentinel_length] at hcase
          omega
        have hk1 : 1 ≤ (ch :: a).length := by simp
        obtain ⟨t, ht⟩ := hpre
        have hS : startSentinel = (ch :: a) ++ startSentinel.take (25 - (ch :: a).length) := by
          have h25 := congrArg (List.take 25) ht
          rw [List.take_left' startSentinel_length] at h25
          rw [List.take_append_eq_append_take] at h25
          rw [List.take_of_length_le (by omega)] at h25
          rw [List.take_append_eq_append_take] at h25
          rw [startSentinel_length] at h25
          rw [show 25 - (ch :: a).length - 25 = 0 by omega, List.take_zero,
            List.append_nil] at h25
          exact h25
        have hdropk := congrArg (List.drop (ch :: a).length) hS
        rw [List.drop_left' rfl] at hdropk
        exact startSentinel_no_self_overlap (ch :: a).length hk25 hk1 hdropk
    rw [if_neg hnp]
    have hrec := ih ha2 r
    rw [hrec]

theorem subAll_nil (sec : List Char) : subAll sec [] = [] := rfl

theorem subAll_step {s p suf : List Char} (h : matchRegion s = some (p, suf))
    (sec : List Char) : subAll sec s = p ++ sec ++ subAll sec suf := by
  have he := subAll_eq sec s
  rw [h] at he
  simpa using he

theorem matchRegion_none_of_no_start {s : List Char} (h : ¬ startSentinel <:+: s) :
    matchRegion s = none := by
  have h1 : splitFirst startSentinel s = none := (splitFirst_none_iff (by decide)).mpr h
  rw [matchRegion, h1]

theorem subAll_of_no_start {sec s : List Char} (h : ¬ startSentinel <:+: s) :
    subAll sec s = s := by
  have he := subAll_eq sec s
  rw [matchRegion_none_of_no_start h] at he
  simpa using he

theorem replaceMarker_no_marker {s : List Char} (h : splitFirst markerHeading s = none)
    (ins : List Char) : replaceMarker ins s = s := by
  have he := replaceMarker_eq ins s
  rw [h] at he
  simpa using he

theorem replaceMarker_step {s a b : List Char} (h : splitFirst markerHeading s = some (a, b))
    (ins : List Char) : replaceMarker ins s = a ++ ins ++ replaceMarker ins b := by
  have he := replaceMarker_eq ins s
  rw [h] at he
  simpa using he

theorem matchRegion_at {p B t : List Char} (hp : ¬ startSentinel <:+: p)
    (hB : splitFirst endSentinel (B ++ endSentinel) = some (B, [])) :
    matchRegion (p ++ startSentinel ++ (B ++ endSentinel ++ t)) = some (p, t) := by
  have h1 := startSplit_here hp (B ++ endSentinel ++ t)
  have hB0 : splitFirst endSentinel (B ++ endSentinel ++ []) = some (B, []) := by
    rw [List.append_nil]
    exact hB
  have h2 := splitFirst_transfer B [] t hB0
  simp only [matchRegion, h1, h2]

theorem subAll_at {sec p B t : List Char} (hp : ¬ startSentinel <:+: p)
    (hB : splitFirst endSentinel (B ++ endSentinel) = some (B, [])) :
    subAll sec (p ++ startSentinel ++ (B ++ endSentinel ++ t)) = p ++ sec ++ subAll sec t :=
  subAll_step (matchRegion_at hp hB) sec

/-- Documents with no dangling start sentinel: every occurrence of the start
sentinel is followed, somewhere later, by an end sentinel. -/
def NoDanglingStart (s : List Char) : Prop :=
  ∀ x y, s = x ++ startSentinel ++ y → endSentinel <:+: y

theorem matchRegion_none_cases {s : List Char} (hnd : NoDanglingStart s)
    (h : matchRegion s = none) : ¬ startSentinel <:+: s := by
  intro hinf
  cases h1 : splitFirst startSentinel s with
  | none => exact (splitFirst_none_iff (by decide)).mp h1 hinf
  | some pr =>
    obtain ⟨p, rest⟩ := pr
    have hdec := splitFirst_decomp h1
    have hend : endSentinel <:+: rest := hnd p rest hdec
    have h2 : (splitFirst endSentinel rest).isSome = true :=
      splitFirst_isSome_of_mem (by decide) hend
    cases h3 : splitFirst endSentinel rest with
    | none =>
      rw [h3] at h2
      simp at h2
    | some ms =>
      obtain ⟨mid, suf⟩ := ms
      simp [matchRegion, h1, h3] at h

theorem subAll_idem {S B : List Char} (hSdef : S = startSentinel ++ B ++ endSentinel)
    (hB : splitFirst endSentinel (B ++ endSentinel) = some (B, [])) :
    ∀ n s, s.length ≤ n → NoDanglingStart s → subAll S (subAll S s) = subAll S s := by
  intro n
  induction n with
  | zero =>
    intro s hlen _
    have hs : s = [] := List.length_eq_zero.mp (Nat.le_zero.mp hlen)
    subst hs
    rw [subAll_nil, subAll_nil]
  | succ n ih =>
    intro s hlen hnd
    cases hm : matchRegion s with
    | none =>
      have hns : ¬ startSentinel <:+: s := matchRegion_none_cases hnd hm
      rw [subAll_of_no_start hns, subAll_of_no_start hns]
    | some psuf =>
      obtain ⟨p, suf⟩ := psuf
      obtain ⟨rest, mid, h1, h2, hs⟩ := matchRegion_decomp hm
      have hstep : subAll S s = p ++ S ++ subAll S suf := subAll_step hm S
      have hndsuf : NoDanglingStart suf := by
        intro x y hxy
        apply hnd (p ++ startSentinel ++ mid ++ endSentinel ++ x) y
        rw [hs, hxy]
        simp
      have hsuflt : suf.length < s.length := matchRegion_suf_lt hm
      have hIH := ih suf (by omega) hndsuf
      have hp : ¬ startSentinel <:+: p := head_no_occurrence h1 (by decide)
      rw [hstep]
      rw [show p ++ S ++ subAll S suf =
        p ++ startSentinel ++ (B ++ endSentinel ++ subAll S suf) by rw [hSdef]; simp]
      rw [subAll_at hp hB, hIH]
      rw [hSdef]
      simp

theorem subAll_fixes_replaceMarker {S B : List Char}
    (hSdef : S = startSentinel ++ B ++ endSentinel)
    (hB : splitFirst endSentinel (B ++ endSentinel) = some (B, [])) :
    ∀ n b q, b.length ≤ n → ¬ startSentinel <:+: (q ++ b) →
      subAll S (q ++ replaceMarker (S ++ hrSeparator ++ markerHeading) b) =
        q ++ replaceMarker (S ++ hrSeparator ++ markerHeading) b := by
  intro n
  induction n with
  | zero =>
    intro b q hlen hq
    have hb : b = [] := List.length_eq_zero.mp (Nat.le_zero.mp hlen)
    subst hb
    have hrm : replaceMarker (S ++ hrSeparator ++ markerHeading) ([] : List Char) = [] := rfl
    rw [hrm]
    exact subAll_of_no_start hq
  | succ n ih =>
    intro b q hlen hq
    cases hm : splitFirst markerHeading b with
    | none =>
      rw [replaceMarker_no_marker hm]
      exact subAll_of_no_start hq
    | some ab =>
      obtain ⟨a2, b2⟩ := ab
      have hdec := splitFirst_decomp hm
      rw [replaceMarker_step hm]
      have hqa : ¬ startSentinel <:+: (q ++ a2) := by
        intro hinf
        apply hq
        obtain ⟨x, y, hxy⟩ := hinf
        refine ⟨x, y ++ (markerHeading ++ b2), ?_⟩
        rw [hdec]
        calc x ++ startSentinel ++ (y ++ (markerHeading ++ b2))
            = (x ++ startSentinel ++ y) ++ (markerHeading ++ b2) := by simp
          _ = (q ++ a2) ++ (markerHeading ++ b2) := by rw [hxy]
          _ = q ++ (a2 ++ markerHeading ++ b2) := by simp
      have hq3 : ¬ startSentinel <:+: ((hrSeparator ++ markerHeading) ++ b2) := by
        intro hinf
        have hb2 : startSentinel <:+: b2 :=
          no_head_char_left (show startSentinel.head? = some '<' by decide)
            (show ('<' : Char) ∉ hrSeparator ++ markerHeading by decide) hinf
        apply hq
        obtain ⟨x, y, hxy⟩ := hb2
        refine ⟨q ++ (a2 ++ markerHeading ++ x), y, ?_⟩
        rw [hdec]
        calc (q ++ (a2 ++ markerHeading ++ x)) ++ startSentinel ++ y
            = q ++ (a2 ++ markerHeading ++ (x ++ startSentinel ++ y)) := by simp
          _ = q ++ (a2 ++ markerHeading ++ b2) := by rw [hxy]
          _ = q ++ (a2 ++ markerHeading ++ b2) := rfl
      have hIH := ih b2 (hrSeparator ++ markerHeading)
        (by
          have := splitFirst_tail_lt hm (by decide)
          omega) hq3
      rw [show q ++ (a2 ++ (S ++ hrSeparator ++ markerHeading) ++
          replaceMarker (S ++ hrSeparator ++ markerHeading) b2) =
        (q ++ a2) ++ startSentinel ++ (B ++ endSentinel ++
          (hrSeparator ++ markerHeading ++
            replaceMarker (S ++ hrSeparator ++ markerHeading) b2)) by rw [hSdef]; simp]
      rw [subAll_at hqa hB]
      rw [show hrSeparator ++ markerHeading ++
          replaceMarker (S ++ hrSeparator ++ markerHeading) b2 =
        (hrSeparator ++ markerHeading) ++
          replaceMarker (S ++ hrSeparator ++ markerHeading) b2 by simp]
      rw [hIH, hSdef]
      simp

/-- C6 amended: the splice step is idempotent for every well-formed rendered
section (start sentinel, then a body containing no end sentinel, then the end
sentinel — which build_tech_stack_section produces whenever the language names
do not themselves contain the sentinel text) and every document with no
dangling start sentinel, i.e. in which every start sentinel is eventually
followed by an end sentinel.  Replacing each matched region with such a
section is then a no-op on the second run, on all three paths. -/
theorem update_readme_idem (S B c : List Char)
    (hSdef : S = startSentinel ++ B ++ endSentinel)
    (hB : splitFirst endSentinel (B ++ endSentinel) = some (B, []))
    (hnd : NoDanglingStart c) :
    update_readme S (update_readme S c) = update_readme S c := by
  by_cases hm : (matchRegion c).isSome = true
  · obtain ⟨ps, hms⟩ := Option.isSome_iff_exists.mp hm
    obtain ⟨p, suf⟩ := ps
    have h1 : update_readme S c = subAll S c := by
      rw [update_readme, if_pos hm]
    have hstep := subAll_step hms S
    have hp : ¬ startSentinel <:+: p := by
      obtain ⟨rest, mid, hsf, _, _⟩ := matchRegion_decomp hms
      exact head_no_occurrence hsf (by decide)
    have hmr : matchRegion (subAll S c) = some (p, subAll S suf) := by
      rw [hstep]
      rw [show p ++ S ++ subAll S suf =
        p ++ startSentinel ++ (B ++ endSentinel ++ subAll S suf) by rw [hSdef]; simp]
      exact matchRegion_at hp hB
    rw [h1, update_readme, if_pos (by rw [hmr]; rfl)]
    exact subAll_idem hSdef hB c.length c le_rfl hnd
  · have hmn : matchRegion c = none := by
      cases h : matchRegion c
      · rfl
      · rw [h] at hm
        simp at hm
    have hnostart : ¬ startSentinel <:+: c := matchRegion_none_cases hnd hmn
    by_cases hmk : (splitFirst markerHeading c).isSome = true
    · have hinner : update_readme S c = replaceMarker (S ++ hrSeparator ++ markerHeading) c := by
        rw [update_readme, if_neg hm, if_pos hmk]
      rw [hinner]
      obtain ⟨ab, hab⟩ := Option.isSome_iff_exists.mp hmk
      obtain ⟨a, b⟩ := ab
      have hdec := splitFirst_decomp hab
      have hra : ¬ startSentinel <:+: a := by
        intro hinf
        apply hnostart
        obtain ⟨x, y, hxy⟩ := hinf
        refine ⟨x, y ++ (markerHeading ++ b), ?_⟩
        rw [hdec]
        calc x ++ startSentinel ++ (y ++ (markerHeading ++ b))
            = (x ++ startSentinel ++ y) ++ (markerHeading ++ b) := by simp
          _ = a ++ (markerHeading ++ b) := by rw [hxy]
          _ = a ++ markerHeading ++ b := by simp
      have hrm := replaceMarker_step hab (S ++ hrSeparator ++ markerHeading)
      have hmr2 : matchRegion (replaceMarker (S ++ hrSeparator ++ markerHeading) c) =
          some (a, hrSeparator ++ markerHeading ++
            replaceMarker (S ++ hrSeparator ++ markerHeading) b) := by
        rw [hrm]
        rw [show a ++ (S ++ hrSeparator ++ markerHeading) ++
            replaceMarker (S ++ hrSeparator ++ markerHeading) b =
          a ++ startSentinel ++ (B ++ endSentinel ++
            (hrSeparator ++ markerHeading ++
              replaceMarker (S ++ hrSeparator ++ markerHeading) b)) by rw [hSdef]; simp]
        exact matchRegion_at hra hB
      rw [update_readme, if_pos (by rw [hmr2]; rfl)]
      have hfix := subAll_fixes_replaceMarker hSdef hB c.length c [] le_rfl
        (by simpa using hnostart)
      simpa using hfix
    · have hinner : update_readme S c = c ++ blankGap ++ S := by
        rw [update_readme, if_neg hm, if_neg hmk]
      rw [hinner]
      have hcb : ¬ startSentinel <:+: (c ++ blankGap) := by
        intro hinf
        exact hnostart (no_pat_chars_right (by decide) (by decide) hinf)
      have hmr3 : matchRegion (c ++ blankGap ++ S) = some (c ++ blankGap, []) := by
        rw [show c ++ blankGap ++ S =
          (c ++ blankGap) ++ startSentinel ++ (B ++ endSentinel ++ []) by rw [hSdef]; simp]
        exact matchRegion_at hcb hB
      rw [update_readme, if_pos (by rw [hmr3]; rfl)]
      rw [subAll_step hmr3, subAll_nil]
      simp

set_option maxRecDepth 40000 in
/-- Counterexample for C6 as stated: for the document consisting of a single
orphan start sentinel, the first splice appends the rendered section; the
second splice then finds a region running from the orphan start sentinel to
the appended section's end sentinel and collapses it, so the document changes
on the second run. -/
theorem update_readme_not_idem :
    update_readme (build_tech_stack_section [])
        (update_readme (build_tech_stack_section []) "<!-- TECH-STACK-START -->".data) ≠
      update_readme (build_tech_stack_section []) "<!-- TECH-STACK-START -->".data := by
  decide

set_option maxRecDepth 40000 in
/-- Witness for C6's amended theorem: on a plain document with no sentinels at
all, splicing the section rendered for Python twice equals splicing it once. -/
theorem update_readme_idem_witness :
    update_readme (build_tech_stack_section ["Python"])
        (update_readme (build_tech_stack_section ["Python"]) "# Hi\n".data) =
      update_readme (build_tech_stack_section ["Python"]) "# Hi\n".data :=
  update_readme_idem (build_tech_stack_section ["Python"]) (sectionBody ["Python"])
    "# Hi\n".data rfl (by decide)
    (by
      intro x y h
      exfalso
      have hlen := congrArg List.length h
      rw [List.length_append, List.length_append, startSentinel_length] at hlen
      have h5 : ("# Hi\n".data).length = 5 := rfl
      rw [h5] at hlen
      omega)

/-- C7: on a document containing neither a region match nor the anchor
heading, the splice step appends the rendered section after a blank line, and
the result does contain a region match, so a second run takes the
replace-existing-region path (whose branch condition is exactly this
isSome test), not the append path. -/
theorem update_readme_append_then_replace (langs : List String) (c : List Char)
    (hm : matchRegion c = none) (hno : ¬ markerHeading <:+: c) :
    update_readme (build_tech_stack_section langs) c =
        c ++ blankGap ++ build_tech_stack_section langs ∧
      (matchRegion (update_readme (build_tech_stack_section langs) c)).isSome = true := by
  have hmk : splitFirst markerHeading c = none := (splitFirst_none_iff (by decide)).mpr hno
  have happ : update_readme (build_tech_stack_section langs) c =
      c ++ blankGap ++ build_tech_stack_section langs := by
    rw [update_readme, if_neg (by rw [hm]; simp), if_neg (by rw [hmk]; simp)]
  refine ⟨happ, ?_⟩
  rw [happ]
  cases h1 : splitFirst startSentinel (c ++ blankGap ++ build_tech_stack_section langs) with
  | none =>
    exfalso
    apply (splitFirst_none_iff (by decide)).mp h1
    refine ⟨c ++ blankGap, sectionBody langs ++ endSentinel, ?_⟩
    rw [build_tech_stack_section]
    simp
  | some pr =>
    obtain ⟨p, rest⟩ := pr
    have hocc : c ++ blankGap ++ build_tech_stack_section langs =
        (c ++ blankGap) ++ startSentinel ++ (sectionBody langs ++ endSentinel) := by
      rw [build_tech_stack_section]
      simp
    have hsufY := tail_suffix_of_occurrence h1 hocc
    have hendY : endSentinel <:+: (sectionBody langs ++ endSentinel) :=
      ⟨sectionBody langs, [], by simp⟩
    have hendrest : endSentinel <:+: rest := hendY.trans hsufY.isInfix
    have h2 := splitFirst_isSome_of_mem (by decide) hendrest
    cases h3 : splitFirst endSentinel rest with
    | none =>
      rw [h3] at h2
      simp at h2
    | some ms =>
      obtain ⟨mid, suf⟩ := ms
      have : matchRegion (c ++ blankGap ++ build_tech_stack_section langs) = some (p, suf) := by
        simp only [matchRegion, h1, h3]
      rw [this]
      rfl

set_option maxRecDepth 40000 in
/-- Witness for C7 at a concrete document with no sentinels and no anchor
heading. -/
theorem update_readme_append_then_replace_witness :
    matchRegion "# Hi\n".data = none ∧ ¬ markerHeading <:+: "# Hi\n".data ∧
      (update_readme (build_tech_stack_section ["Python"]) "# Hi\n".data =
          "# Hi\n".data ++ blankGap ++ build_tech_stack_section ["Python"] ∧
        (matchRegion
          (update_readme (build_tech_stack_section ["Python"]) "# Hi\n".data)).isSome = true) :=
  ⟨by decide, by decide,
    update_readme_append_then_replace ["Python"] "# Hi\n".data (by decide) (by decide)⟩

set_option maxRecDepth 80000 in
/-- Counterexample for C9 as stated: a region-free document in which the
anchor heading occurs twice.  str.replace replaces every occurrence, so the
splice inserts the section before both headings; the document is not the
claimed single insertion before the (first) marker with the rest unchanged. -/
theorem update_readme_marker_counterexample :
    matchRegion ("## 📊 GitHub Stats\n## 📊 GitHub Stats").data = none ∧
      markerHeading <:+: ("## 📊 GitHub Stats\n## 📊 GitHub Stats").data ∧
      update_readme (build_tech_stack_section [])
          ("## 📊 GitHub Stats\n## 📊 GitHub Stats").data =
        (build_tech_stack_section [] ++ hrSeparator ++ markerHeading) ++ "\n".data ++
          (build_tech_stack_section [] ++ hrSeparator ++ markerHeading) ∧
      update_readme (build_tech_stack_section [])
          ("## 📊 GitHub Stats\n## 📊 GitHub Stats").data ≠
        build_tech_stack_section [] ++ hrSeparator ++ markerHeading ++
          ("\n## 📊 GitHub Stats").data := by
  refine ⟨by decide, by decide, by decide, by decide⟩

/-- C9 amended: on a document with no region match whose first anchor-heading
occurrence splits it as a ++ marker ++ b, and in which the marker occurs only
once (none in b), the splice inserts the new section followed by the
horizontal-rule separator (with its blank-line gaps) immediately before the
marker and leaves a and b unchanged.  When the marker occurs more than once,
the same insertion happens before every occurrence, because str.replace
replaces all occurrences. -/
theorem update_readme_insert_before_marker (S c a b : List Char)
    (hm : matchRegion c = none)
    (hsplit : splitFirst markerHeading c = some (a, b))
    (honce : ¬ markerHeading <:+: b) :
    update_readme S c = a ++ (S ++ hrSeparator ++ markerHeading) ++ b := by
  rw [update_readme, if_neg (by rw [hm]; simp), if_pos (by rw [hsplit]; rfl)]
  rw [replaceMarker_step hsplit]
  rw [replaceMarker_no_marker ((splitFirst_none_iff (by decide)).mpr honce)]

set_option maxRecDepth 80000 in
/-- Witness for C9's amended theorem on a document holding one marker between
an intro line and a tail. -/
theorem update_readme_insert_before_marker_witness :
    matchRegion ("intro\n## 📊 GitHub Stats\nrest").data = none ∧
      splitFirst markerHeading ("intro\n## 📊 GitHub Stats\nrest").data =
        some ("intro\n".data, "\nrest".data) ∧
      ¬ markerHeading <:+: ("\nrest").data ∧
      update_readme (build_tech_stack_section []) ("intro\n## 📊 GitHub Stats\nrest").data =
        "intro\n".data ++
          (build_tech_stack_section [] ++ hrSeparator ++ markerHeading) ++ ("\nrest").data :=
  ⟨by decide, by decide, by decide,
    update_readme_insert_before_marker (build_tech_stack_section []) _ _ _
      (by decide) (by decide) (by decide)⟩

/-- Last occurrence of pat inside s, as the first occurrence in the reversed
string: splitLast pat s = some (x, z) means s = x ++ pat ++ z with no later
occurrence. -/
def splitLast (pat s : List Char) : Option (List Char × List Char) :=
  match splitFirst pat.reverse s.reverse with
  | none => none
  | some (b, a) => some (a.reverse, b.reverse)

/-- Modelled from the claim's words, not from the source: a GREEDY region
match that runs from the first start sentinel to the LAST end sentinel and is
replaced in one piece by the rendered section. -/
def greedySpliceSpec (newSection content : List Char) : List Char :=
  match splitFirst startSentinel content, splitLast endSentinel content with
  | some (p, _), some (_, z) => p ++ newSection ++ z
  | _, _ => content

set_option maxRecDepth 80000 in
/-- Counterexample for C4 as stated: on a document holding one start sentinel
followed by two end sentinels, the code's lazy pattern matches only up to the
first end sentinel, leaving the text after it in place, whereas the claimed
greedy first-start-to-last-end match would swallow everything. -/
theorem update_readme_not_greedy :
    update_readme "N".data
        ("<!-- TECH-STACK-START -->A<!-- TECH-STACK-END -->B<!-- TECH-STACK-END -->").data =
      ("NB<!-- TECH-STACK-END -->").data ∧
    greedySpliceSpec "N".data
        ("<!-- TECH-STACK-START -->A<!-- TECH-STACK-END -->B<!-- TECH-STACK-END -->").data =
      "N".data ∧
    update_readme "N".data
        ("<!-- TECH-STACK-START -->A<!-- TECH-STACK-END -->B<!-- TECH-STACK-END -->").data ≠
      greedySpliceSpec "N".data
        ("<!-- TECH-STACK-START -->A<!-- TECH-STACK-END -->B<!-- TECH-STACK-END -->").data := by
  refine ⟨by decide, by decide, by decide⟩

/-- C4 amended: when the document matches the region pattern, the match is
lazy, not greedy: it runs from the first start sentinel to the first end
sentinel after it (no start sentinel in the prefix before it, no end sentinel
inside the matched middle), the splice replaces that matched region with the
rendered section, and re.sub goes on to replace every further non-overlapping
match in the remaining suffix. -/
theorem update_readme_lazy_replace (newSection c p suf : List Char)
    (h : matchRegion c = some (p, suf)) :
    (∃ mid, c = p ++ startSentinel ++ mid ++ endSentinel ++ suf ∧
        ¬ startSentinel <:+: p ∧ ¬ endSentinel <:+: mid) ∧
      update_readme newSection c = p ++ newSection ++ subAll newSection suf := by
  obtain ⟨rest, mid, h1, h2, hs⟩ := matchRegion_decomp h
  refine ⟨⟨mid, hs, head_no_occurrence h1 (by decide), head_no_occurrence h2 (by decide)⟩, ?_⟩
  rw [update_readme, if_pos (by rw [h]; rfl)]
  exact subAll_step h newSection

set_option maxRecDepth 80000 in
/-- Witness for C4's amended theorem on a concrete document with one region
followed by trailing text. -/
theorem update_readme_lazy_replace_witness :
    matchRegion ("<!-- TECH-STACK-START -->A<!-- TECH-STACK-END -->B").data =
        some ([], "B".data) ∧
      ((∃ mid, ("<!-- TECH-STACK-START -->A<!-- TECH-STACK-END -->B").data =
            [] ++ startSentinel ++ mid ++ endSentinel ++ "B".data ∧
          ¬ startSentinel <:+: ([] : List Char) ∧ ¬ endSentinel <:+: mid) ∧
        update_readme "N".data ("<!-- TECH-STACK-START -->A<!-- TECH-STACK-END -->B").data =
          [] ++ "N".data ++ subAll "N".data "B".data) :=
  ⟨by decide,
    update_readme_lazy_replace "N".data
      ("<!-- TECH-STACK-START -->A<!-- TECH-STACK-END -->B").data [] "B".data (by decide)⟩
